import Mathlib

/-
Verification development for the arithmetic-expression calculator in
src/Calculator/code/Calculator.c.  The calculator pipeline is
tokenize -> to_postfix (shunting yard) -> eval_postfix, over tokens that are
numbers, operators, unary function names and parentheses.  Numeric values are
C doubles; we embed them as rationals, which models every arithmetic step the
claims evaluate exactly (small integer addition, subtraction, multiplication,
integer powers, truncation and integer remainder are all exact in binary64).
Transcendental helpers (sin, cos, tan, exp, ln, log) cannot be represented in
the rationals; they are embedded as fixed computable stand-ins, and no claim
depends on any of their values.
-/

namespace Calculator

/-- Tokens of the calculator, mirroring the C struct Token, a tagged record
over NUMBER (with a double value), OPERATOR (with a char), FUNCTION (with a
name) and the two parenthesis kinds. -/
inductive Token where
  | num (value : ℚ)
  | op (c : Char)
  | fn (name : String)
  | lparen
  | rparen
deriving DecidableEq, Repr

/-- Operator precedence table, from the C function precedence: + - at 1,
* / % at 2, caret at 3, anything else 0. -/
def precedence (c : Char) : Nat :=
  if c = '+' then 1
  else if c = '-' then 1
  else if c = '*' then 2
  else if c = '/' then 2
  else if c = '%' then 2
  else if c = '^' then 3
  else 0

/-- Right associativity test, from the C function is_right_associative:
only the caret operator is right associative. -/
def is_right_associative (c : Char) : Bool := c == '^'

/-- The while-loop condition in the OPERATOR branch of the C function
to_postfix: an incoming operator c pops the stack top t when t is a function,
or t is an operator of strictly higher precedence, or of equal precedence
while c is left associative. -/
def popCondB (c : Char) : Token → Bool
  | Token.fn _ => true
  | Token.op p =>
      decide (precedence c < precedence p) ||
        (precedence p == precedence c && !is_right_associative c)
  | _ => false

/-- Popping loop run by the OPERATOR branch of to_postfix: returns the popped
tokens (in pop order) and the remaining stack. -/
def popForOp (c : Char) : List Token → List Token × List Token
  | [] => ([], [])
  | t :: s =>
      if popCondB c t then
        let r := popForOp c s
        (t :: r.1, r.2)
      else ([], t :: s)

/-- Popping loop run by the PAREN_RIGHT branch of to_postfix: pop to the
output until a left parenthesis is found (which is discarded); none when the
stack empties first, which is the mismatched-parenthesis error. -/
def popToLParen : List Token → Option (List Token × List Token)
  | [] => none
  | t :: s =>
      if t = Token.lparen then some ([], s)
      else (popToLParen s).map (fun r => (t :: r.1, r.2))

/-- After discarding the left parenthesis, to_postfix pops a function token
to the output when one sits on the new stack top. -/
def afterRParen : List Token → List Token × List Token
  | Token.fn f :: s => ([Token.fn f], s)
  | s => ([], s)

/-- End-of-input drain loop of to_postfix: pop the whole stack to the output,
failing when a left parenthesis is found. -/
def drain : List Token → Option (List Token)
  | [] => some []
  | t :: s =>
      if t = Token.lparen then none
      else (drain s).map (fun out => t :: out)

/-- Main loop of the C function to_postfix (shunting yard), processing the
input tokens against an operator stack; returns the output sequence in order,
or none on a mismatched parenthesis. -/
def syRun : List Token → List Token → Option (List Token)
  | [], stack => drain stack
  | Token.num v :: ts, stack =>
      (syRun ts stack).map (fun out => Token.num v :: out)
  | Token.fn f :: ts, stack => syRun ts (Token.fn f :: stack)
  | Token.op c :: ts, stack =>
      let r := popForOp c stack
      (syRun ts (Token.op c :: r.2)).map (fun out => r.1 ++ out)
  | Token.lparen :: ts, stack => syRun ts (Token.lparen :: stack)
  | Token.rparen :: ts, stack =>
      match popToLParen stack with
      | none => none
      | some r =>
          let g := afterRParen r.2
          (syRun ts g.2).map (fun out => r.1 ++ g.1 ++ out)

/-- The C function to_postfix: convert an infix token sequence to postfix
order, starting from an empty operator stack. -/
def to_rpn (ts : List Token) : Option (List Token) := syRun ts []

/-- C cast (int)q of a double, truncation toward zero; on rationals this is
the t-division of the numerator by the denominator. -/
def truncQ (q : ℚ) : Int := Int.tdiv q.num (q.den : Int)

/-- C pow on doubles, exact for integer exponents (the only exponents any
claim evaluates); a fractional exponent is embedded as 0, standing in for the
irrational real power that the rationals cannot represent. -/
def powQ (a b : ℚ) : ℚ :=
  if b.den = 1 then
    if 0 ≤ b.num then a ^ b.num.toNat else (a ^ (-b.num).toNat)⁻¹
  else 0

/-- The C function apply_operator: + - * are total, / errors exactly on a
zero right operand, % truncates both operands to int and errors exactly when
the truncated right operand is zero (C remainder, sign of the dividend),
caret is pow, and an unknown operator char errors. -/
def apply_operator : Char → ℚ → ℚ → Option ℚ
  | '+', a, b => some (a + b)
  | '-', a, b => some (a - b)
  | '*', a, b => some (a * b)
  | '/', a, b => if b = 0 then none else some (a / b)
  | '%', a, b =>
      if truncQ b = 0 then none
      else some ((Int.tmod (truncQ a) (truncQ b) : ℚ))
  | '^', a, b => some (powQ a b)
  | _, _, _ => none

/-- The C function factorial: 0 for a negative argument, otherwise the
product 2..n, which is n factorial. -/
def factorialC (n : Int) : ℚ :=
  if n < 0 then 0 else (Nat.factorial n.toNat : ℚ)

/-- Integer square root by downward search (helper for the sqrt model);
isqrtGo n k is the largest j ≤ k with j * j ≤ n. -/
def isqrtGo (n : Nat) : Nat → Nat
  | 0 => 0
  | k + 1 => if (k + 1) * (k + 1) ≤ n then k + 1 else isqrtGo n k

/-- Computable stand-in for the C double sqrt: exact on perfect-square
naturals (the only inputs any claim evaluates), inexact elsewhere. -/
def sqrtQ (q : ℚ) : ℚ :=
  if q.den = 1 then (isqrtGo q.num.toNat q.num.toNat : ℚ) else 0

/-- Computable stand-in for the C transcendental helpers (ln, log10, exp and
the degree trigonometric functions); no claim evaluates any of their values,
only the domain checks and the pipeline plumbing around them. -/
def transcQ : ℚ → ℚ := fun _ => 0

/-- The C function apply_function: dispatch on the function name with the
domain checks of the C code (sqrt rejects negatives, ln and log reject
non-positives, fact rejects negatives and non-integers), erroring on any
name outside the registry. -/
def apply_function (f : String) (a : ℚ) : Option ℚ :=
  if f = "sqrt" then if a < 0 then none else some (sqrtQ a)
  else if f = "abs" then some |a|
  else if f = "ln" then if a ≤ 0 then none else some (transcQ a)
  else if f = "log" then if a ≤ 0 then none else some (transcQ a)
  else if f = "exp" then some (transcQ a)
  else if f = "fact" then
    if a < 0 ∨ ¬ a.den = 1 then none else some (factorialC (truncQ a))
  else if f = "sin" then some (transcQ a)
  else if f = "cos" then some (transcQ a)
  else if f = "tan" then some (transcQ a)
  else none

/-- Loop of the C function eval_postfix over a value stack: numbers push,
operators pop two values (right operand first) and push the operator result,
functions pop one value and push the function result; parenthesis tokens are
skipped (the C switch has no case for them).  At the end exactly one value
must remain.  The C code records errors in a flag and keeps looping with a
garbage value; since the flag is never cleared, aborting on the first error
is observationally the same at the error-flag level, which is what we model
with none. -/
def eval_rpn_go : List Token → List ℚ → Option ℚ
  | [], st =>
      match st with
      | [v] => some v
      | _ => none
  | Token.num v :: ts, st => eval_rpn_go ts (v :: st)
  | Token.op c :: ts, st =>
      match st with
      | b :: a :: st0 =>
          match apply_operator c a b with
          | some v => eval_rpn_go ts (v :: st0)
          | none => none
      | _ => none
  | Token.fn f :: ts, st =>
      match st with
      | a :: st0 =>
          match apply_function f a with
          | some v => eval_rpn_go ts (v :: st0)
          | none => none
      | _ => none
  | Token.lparen :: ts, st => eval_rpn_go ts st
  | Token.rparen :: ts, st => eval_rpn_go ts st

/-- The C function eval_postfix, started from an empty value stack. -/
def eval_rpn (ts : List Token) : Option ℚ := eval_rpn_go ts []

/-- C isspace over the ASCII inputs the program reads. -/
def isSpaceC (c : Char) : Bool :=
  c == ' ' || c == '\t' || c == '\n' || c == '\r' || c == '\x0B' || c == '\x0C'

/-- C isdigit over ASCII. -/
def isDigitC (c : Char) : Bool := c.isDigit

/-- C isalpha over ASCII. -/
def isAlphaC (c : Char) : Bool := c.isAlpha

/-- Characters consumed by the number-skipping loop of the C tokenizer:
digits and the decimal point. -/
def numChar (c : Char) : Bool := isDigitC c || c == '.'

/-- The operator characters recognized by strchr over the string with the six
operator characters in the C tokenizer. -/
def opCharB (c : Char) : Bool :=
  c == '+' || c == '-' || c == '*' || c == '/' || c == '%' || c == '^'

/-- Value of a digit string read most significant first. -/
def digitsVal (l : List Char) : Nat :=
  l.foldl (fun n c => 10 * n + (c.toNat - 48)) 0

/-- Value that sscanf with the double conversion reads at the start of a
digit-and-dot run: the longest valid numeric prefix is the leading digits,
optionally a single point, then further digits; anything from a second point
on is ignored by the conversion (though the C skip loop still consumes it). -/
def numValue (run : List Char) : ℚ :=
  let ip := run.takeWhile isDigitC
  let rest := run.dropWhile isDigitC
  if rest.head? = some '.' then
    let fp := rest.tail.takeWhile isDigitC
    (digitsVal ip : ℚ) + (digitsVal fp : ℚ) / (10 : ℚ) ^ fp.length
  else (digitsVal ip : ℚ)

/-- Test whether the next character is a digit (the lookahead in the C
tokenizer for a point that starts a literal). -/
def headDigit : List Char → Bool
  | c :: _ => isDigitC c
  | [] => false

/-- Main loop of the C function tokenize, with an explicit fuel argument that
makes the recursion structural; every step consumes at least one character,
so any fuel at least the input length is never exhausted.  Order of the
branches is that of the C code: whitespace skip, numeric literal (leading
digit, or point followed by a digit; the value read by sscanf, the skip loop
consuming the whole digit-and-dot run), alphabetic identifier (the literal
identifier Ans becomes a number carrying last_result, any other identifier a
function token), the two parentheses, the six operator characters, and
failure on anything else. -/
def tokenizeGo (lr : ℚ) : Nat → List Char → Option (List Token)
  | _, [] => some []
  | 0, _ :: _ => none
  | fuel + 1, c :: cs =>
      if isSpaceC c then tokenizeGo lr fuel cs
      else if isDigitC c || (c == '.' && headDigit cs) then
        (tokenizeGo lr fuel (cs.dropWhile numChar)).map
          (fun ts => Token.num (numValue (c :: cs.takeWhile numChar)) :: ts)
      else if isAlphaC c then
        if String.mk (c :: cs.takeWhile isAlphaC) = "Ans" then
          (tokenizeGo lr fuel (cs.dropWhile isAlphaC)).map
            (fun ts => Token.num lr :: ts)
        else
          (tokenizeGo lr fuel (cs.dropWhile isAlphaC)).map
            (fun ts => Token.fn (String.mk (c :: cs.takeWhile isAlphaC)) :: ts)
      else if c == '(' then
        (tokenizeGo lr fuel cs).map (fun ts => Token.lparen :: ts)
      else if c == ')' then
        (tokenizeGo lr fuel cs).map (fun ts => Token.rparen :: ts)
      else if opCharB c then
        (tokenizeGo lr fuel cs).map (fun ts => Token.op c :: ts)
      else none

/-- The C function tokenize: break an expression string into tokens, or fail
on an invalid character (the C return value -1). -/
def tokenize (lr : ℚ) (s : List Char) : Option (List Token) :=
  tokenizeGo lr s.length s

/-- The token-buffer capacity MAX_TOKENS of the C code.  The C tokenizer
never checks it: it keeps writing past the buffer, which is the latent
defect the specification flags. -/
def MAX_TOKENS : Nat := 100

/-- An expression of 101 tokens (fifty-one 1 literals joined by fifty plus
signs), one more token than the MAX_TOKENS buffer of the C code holds. -/
def longInput : List Char := (List.replicate 50 ['1', '+']).flatten ++ ['1']

/-- Conversion plus evaluation, the part of the pipeline downstream of the
tokenizer. -/
def convert_eval (ts : List Token) : Option ℚ :=
  match to_rpn ts with
  | none => none
  | some ps => eval_rpn ps

/-- The C function evaluate_expression as a total pipeline returning an
optional value: tokenize, then convert, then evaluate, each stage aborting
the rest on failure. -/
def evaluate (s : List Char) (lr : ℚ) : Option ℚ :=
  match tokenize lr s with
  | none => none
  | some ts => convert_eval ts

/-- The C function evaluate_expression with its observable interface: a
returned double and the error flag; every failure surfaces as the single
undifferentiated flag (the C int error set to 1), with 0 as the returned
value. -/
def evaluate_expression (s : List Char) (lr : ℚ) : ℚ × Bool :=
  match evaluate s lr with
  | some v => (v, false)
  | none => (0, true)

/-!
Abstract syntax of well-formed arithmetic expressions, used to state the
claim that the pipeline agrees with direct arithmetic evaluation.  An
expression is a numeric literal, a parenthesized expression, or a binary
operator applied to two subexpressions.  The predicate respB singles out the
trees that respect the precedence table, that is, the trees an infix reading
of their token sequence denotes: the lower-precedence side conditions say
that an unparenthesized child never has looser top-level binding than the
parent operator allows (left children bind at least as tightly, strictly for
the right-associative caret; right children bind strictly tighter, except
under the caret where equality is allowed, which is right association).
-/

/-- Function-free arithmetic expression trees. -/
inductive Expr where
  | num (v : ℚ)
  | paren (e : Expr)
  | bin (c : Char) (l r : Expr)
deriving DecidableEq, Repr

/-- Infix token sequence of an expression tree, exactly what the tokenizer
produces for the corresponding source text. -/
def tokensOf : Expr → List Token
  | Expr.num v => [Token.num v]
  | Expr.paren e => Token.lparen :: (tokensOf e ++ [Token.rparen])
  | Expr.bin c l r => tokensOf l ++ Token.op c :: tokensOf r

/-- Direct arithmetic evaluation of an expression tree, using the very same
apply_operator as the pipeline. -/
def evalExpr : Expr → Option ℚ
  | Expr.num v => some v
  | Expr.paren e => evalExpr e
  | Expr.bin c l r =>
      match evalExpr l, evalExpr r with
      | some a, some b => apply_operator c a b
      | _, _ => none

/-- Binding level of the top of an expression tree: atoms and parenthesized
expressions bind tightest (level 4, above every operator), a binary node
binds at the precedence of its operator. -/
def level : Expr → Nat
  | Expr.num _ => 4
  | Expr.paren _ => 4
  | Expr.bin c _ _ => precedence c

/-- An expression tree respects the precedence table when every binary node
could be produced by an infix parse: the left child binds at least as
tightly as the operator (strictly for the right-associative caret) and the
right child binds strictly tighter (at least as tightly for the caret). -/
def respB : Expr → Bool
  | Expr.num _ => true
  | Expr.paren e => respB e
  | Expr.bin c l r =>
      respB l && respB r &&
        (if is_right_associative c then
          decide (precedence c < level l) && decide (precedence c ≤ level r)
        else
          decide (precedence c ≤ level l) && decide (precedence c < level r))

/-- Pending operator-stack segment after the shunting-yard loop has consumed
the tokens of an expression: the operators of its top-level right spine,
topmost first. -/
def pend : Expr → List Token
  | Expr.num _ => []
  | Expr.paren _ => []
  | Expr.bin c _ r => pend r ++ [Token.op c]

/-- Output emitted while the shunting-yard loop consumes the tokens of an
expression (the rest of its postfix form, pend, is still on the stack). -/
def emitted : Expr → List Token
  | Expr.num v => [Token.num v]
  | Expr.paren e => emitted e ++ pend e
  | Expr.bin _ l r => emitted l ++ pend l ++ emitted r

/-- Postfix form of an expression tree. -/
def rpn : Expr → List Token
  | Expr.num v => [Token.num v]
  | Expr.paren e => rpn e
  | Expr.bin c l r => rpn l ++ rpn r ++ [Token.op c]

/-- Operators of the top-level left spine of an expression: exactly the
incoming operators that can compare against stack entries below the
expression during shunting-yard conversion. -/
def leftOps : Expr → List Char
  | Expr.num _ => []
  | Expr.paren _ => []
  | Expr.bin c l _ => c :: leftOps l

/-- A stack blocks an incoming operator when its top (if any) fails the pop
condition for that operator. -/
def blockedFor (o : Char) : List Token → Bool
  | [] => true
  | t :: _ => !popCondB o t

/-- Parenthesis balance check of a token sequence against a running depth:
true when every right parenthesis finds an open one and the final depth is
zero. -/
def balancedB : List Token → Nat → Bool
  | [], d => d == 0
  | Token.lparen :: ts, d => balancedB ts (d + 1)
  | Token.rparen :: ts, d =>
      match d with
      | 0 => false
      | d + 1 => balancedB ts d
  | _ :: ts, d => balancedB ts d

/-- Number of left parentheses in a stack. -/
def countLP : List Token → Nat
  | [] => 0
  | Token.lparen :: s => countLP s + 1
  | _ :: s => countLP s

/-!
Helper lemmas about the stack-manipulating loops of the converter.
-/

lemma popForOp_blocked (c : Char) (s : List Token) (h : blockedFor c s = true) :
    popForOp c s = ([], s) := by
  cases s with
  | nil => rfl
  | cons t s =>
      simp only [blockedFor, Bool.not_eq_true'] at h
      simp [popForOp, h]

lemma popForOp_append (c : Char) (l s : List Token)
    (hl : ∀ t ∈ l, popCondB c t = true) (hs : blockedFor c s = true) :
    popForOp c (l ++ s) = (l, s) := by
  induction l with
  | nil => simpa using popForOp_blocked c s hs
  | cons t l ih =>
      have ht : popCondB c t = true := hl t (by simp)
      have ih2 := ih (fun u hu => hl u (by simp [hu]))
      simp [popForOp, ht, ih2]

lemma popToLParen_append (l s : List Token) (hl : Token.lparen ∉ l) :
    popToLParen (l ++ Token.lparen :: s) = some (l, s) := by
  induction l with
  | nil => simp [popToLParen]
  | cons t l ih =>
      rw [List.mem_cons, not_or] at hl
      simp [popToLParen, Ne.symm hl.1, ih hl.2]

lemma popToLParen_not_mem (s : List Token) (h : Token.lparen ∉ s) :
    popToLParen s = none := by
  induction s with
  | nil => rfl
  | cons t s ih =>
      rw [List.mem_cons, not_or] at h
      simp [popToLParen, Ne.symm h.1, ih h.2]

lemma countLP_cons (t : Token) (s : List Token) (h : t ≠ Token.lparen) :
    countLP (t :: s) = countLP s := by
  cases t <;> first | rfl | exact absurd rfl h

lemma mem_of_countLP_ne (s : List Token) (h : countLP s ≠ 0) :
    Token.lparen ∈ s := by
  induction s with
  | nil => exact absurd rfl h
  | cons t s ih =>
      by_cases ht : t = Token.lparen
      · simp [ht]
      · rw [countLP_cons t s ht] at h
        exact List.mem_cons_of_mem t (ih h)

lemma not_mem_of_countLP_zero (s : List Token) (h : countLP s = 0) :
    Token.lparen ∉ s := by
  intro hmem
  induction s with
  | nil => cases hmem
  | cons t s ih =>
      by_cases ht : t = Token.lparen
      · subst ht
        simp [countLP] at h
      · rw [countLP_cons t s ht] at h
        rcases List.mem_cons.mp hmem with h1 | h1
        · exact ht h1.symm
        · exact ih h h1

lemma popToLParen_of_mem (s : List Token) (h : Token.lparen ∈ s) :
    ∃ p s2, popToLParen s = some (p, s2) ∧ countLP s2 + 1 = countLP s := by
  induction s with
  | nil => cases h
  | cons t s ih =>
      by_cases ht : t = Token.lparen
      · subst ht
        exact ⟨[], s, by simp [popToLParen], by simp [countLP]⟩
      · have hs : Token.lparen ∈ s := by
          rcases List.mem_cons.mp h with h1 | h1
          · exact absurd h1.symm ht
          · exact h1
        obtain ⟨p, s2, hp, hc⟩ := ih hs
        refine ⟨t :: p, s2, by simp [popToLParen, ht, hp], ?_⟩
        rw [countLP_cons t s ht, hc]

lemma drain_not_mem (s : List Token) (h : Token.lparen ∉ s) :
    drain s = some s := by
  induction s with
  | nil => rfl
  | cons t s ih =>
      rw [List.mem_cons, not_or] at h
      simp [drain, Ne.symm h.1, ih h.2]

lemma drain_of_mem (s : List Token) (h : Token.lparen ∈ s) : drain s = none := by
  induction s with
  | nil => cases h
  | cons t s ih =>
      by_cases ht : t = Token.lparen
      · simp [drain, ht]
      · have hs : Token.lparen ∈ s := by
          rcases List.mem_cons.mp h with h1 | h1
          · exact absurd h1.symm ht
          · exact h1
        simp [drain, ht, ih hs]

lemma afterRParen_noFn (s : List Token) (h : ∀ g, Token.fn g ∉ s) :
    afterRParen s = ([], s) := by
  cases s with
  | nil => rfl
  | cons t s =>
      cases t with
      | fn g => exact absurd (List.mem_cons_self _ _) (h g)
      | num v => rfl
      | op c => rfl
      | lparen => rfl
      | rparen => rfl

/-!
Facts about the precedence table.
-/

lemma precedence_le_three (c : Char) : precedence c ≤ 3 := by
  unfold precedence
  split_ifs <;> omega

lemma precedence_eq_three (c : Char) (h : precedence c = 3) : c = '^' := by
  unfold precedence at h
  split_ifs at h <;> first | omega | assumption

lemma rA_eq (c : Char) : is_right_associative c = true ↔ c = '^' := by
  simp [is_right_associative]

lemma rA_prec (c : Char) (h : is_right_associative c = true) :
    precedence c = 3 := by
  rw [rA_eq] at h
  subst h
  rfl

lemma popCond_false_of_lt (o c : Char) (h : precedence c < precedence o) :
    popCondB o (Token.op c) = false := by
  have h1 : decide (precedence o < precedence c) = false := by
    simp only [decide_eq_false_iff_not]
    omega
  have h2 : (precedence c == precedence o) = false := by
    simp only [beq_eq_false_iff_ne, ne_eq]
    omega
  simp [popCondB, h1, h2]

lemma popCond_false_caret (o : Char) (h : precedence o = 3) :
    popCondB o (Token.op '^') = false := by
  have hc : o = '^' := precedence_eq_three o h
  subst hc
  rfl

/-!
Facts about the pending right spine and the left-spine operators of a
precedence-respecting expression.
-/

lemma pend_of_level_four (e : Expr) (h : 3 < level e) : pend e = [] := by
  cases e with
  | num v => rfl
  | paren e => rfl
  | bin c l r =>
      exfalso
      have := precedence_le_three c
      simp only [level] at h
      omega

lemma pend_shape (e : Expr) : ∀ t ∈ pend e, ∃ p, t = Token.op p := by
  induction e with
  | num v => intro t ht; cases ht
  | paren e ih => intro t ht; cases ht
  | bin c l r ihl ihr =>
      intro t ht
      simp only [pend, List.mem_append] at ht
      rcases ht with h | h
      · exact ihr t h
      · simp only [List.mem_singleton] at h
        exact ⟨c, h⟩

lemma lparen_not_mem_pend (e : Expr) : Token.lparen ∉ pend e := by
  intro hmem
  obtain ⟨p, hp⟩ := pend_shape e _ hmem
  cases hp

lemma pend_prec (e : Expr) (he : respB e = true) :
    ∀ p, Token.op p ∈ pend e → level e ≤ precedence p := by
  induction e with
  | num v => intro p hp; cases hp
  | paren e ih => intro p hp; cases hp
  | bin c l r ihl ihr =>
      intro p hp
      simp only [respB, Bool.and_eq_true] at he
      obtain ⟨⟨hl, hr⟩, hcond⟩ := he
      have hlev_r : precedence c ≤ level r := by
        cases hra : is_right_associative c <;> simp [hra] at hcond <;> omega
      simp only [pend, List.mem_append, List.mem_singleton] at hp
      rcases hp with h | h
      · have := ihr hr p h
        show precedence c ≤ precedence p
        omega
      · have hpc : p = c := by
          injection h
        subst hpc
        simp [level]

lemma leftOps_prec (e : Expr) (he : respB e = true) :
    ∀ o ∈ leftOps e, level e ≤ precedence o := by
  induction e with
  | num v => intro o ho; cases ho
  | paren e ih => intro o ho; cases ho
  | bin c l r ihl ihr =>
      intro o ho
      simp only [respB, Bool.and_eq_true] at he
      obtain ⟨⟨hl, hr⟩, hcond⟩ := he
      have hlev_l : precedence c ≤ level l := by
        cases hra : is_right_associative c <;> simp [hra] at hcond <;> omega
      simp only [leftOps, List.mem_cons] at ho
      rcases ho with h | h
      · subst h
        simp [level]
      · have := ihl hl o h
        show precedence c ≤ precedence o
        omega

lemma pops_pend (c : Char) (l : Expr) (hl : respB l = true)
    (hcond : precedence c ≤ level l) (hra : is_right_associative c = false) :
    ∀ t ∈ pend l, popCondB c t = true := by
  intro t ht
  obtain ⟨p, rfl⟩ := pend_shape l t ht
  have hp := pend_prec l hl p ht
  simp only [popCondB, hra, Bool.not_false, Bool.and_true, Bool.or_eq_true,
    decide_eq_true_eq, beq_iff_eq]
  omega

/-!
Main shunting-yard invariant: consuming the tokens of a precedence-respecting
expression on top of a stack that blocks its left-spine operators (and holds
no functions) emits exactly the emitted part of its postfix form and leaves
its pending right spine on the stack.
-/

lemma syRun_expr (e : Expr) (he : respB e = true) :
    ∀ (ts s : List Token),
      (∀ o ∈ leftOps e, blockedFor o s = true) →
      (∀ g, Token.fn g ∉ s) →
      syRun (tokensOf e ++ ts) s =
        (syRun ts (pend e ++ s)).map (fun out => emitted e ++ out) := by
  induction e with
  | num v =>
      intro ts s _ _
      simp [tokensOf, syRun, pend, emitted]
  | paren e ih =>
      intro ts s hb hf
      have he' : respB e = true := by simpa [respB] using he
      have hb2 : ∀ o ∈ leftOps e, blockedFor o (Token.lparen :: s) = true := by
        intro o _
        rfl
      have hf2 : ∀ g, Token.fn g ∉ (Token.lparen :: s) := by
        intro g hg
        rcases List.mem_cons.mp hg with h | h
        · cases h
        · exact hf g h
      have hstep : tokensOf (Expr.paren e) ++ ts
          = Token.lparen :: (tokensOf e ++ (Token.rparen :: ts)) := by
        simp [tokensOf]
      rw [hstep]
      rw [show syRun (Token.lparen :: (tokensOf e ++ (Token.rparen :: ts))) s
            = syRun (tokensOf e ++ (Token.rparen :: ts)) (Token.lparen :: s)
          from rfl]
      rw [ih he' (Token.rparen :: ts) (Token.lparen :: s) hb2 hf2]
      have hpop : popToLParen (pend e ++ Token.lparen :: s) = some (pend e, s) :=
        popToLParen_append (pend e) s (lparen_not_mem_pend e)
      simp only [syRun, hpop, afterRParen_noFn s hf]
      cases hx : syRun ts s <;> simp [pend, emitted, List.append_assoc, hx]
  | bin c l r ihl ihr =>
      intro ts s hb hf
      have he2 := he
      simp only [respB, Bool.and_eq_true] at he2
      obtain ⟨⟨hl, hr⟩, hcond⟩ := he2
      have hstep : tokensOf (Expr.bin c l r) ++ ts
          = tokensOf l ++ (Token.op c :: (tokensOf r ++ ts)) := by
        simp [tokensOf]
      rw [hstep]
      have hbl : ∀ o ∈ leftOps l, blockedFor o s = true := by
        intro o ho
        exact hb o (by simp [leftOps, ho])
      rw [ihl hl (Token.op c :: (tokensOf r ++ ts)) s hbl hf]
      have hpop : popForOp c (pend l ++ s) = (pend l, s) := by
        apply popForOp_append
        · cases hra : is_right_associative c with
          | true =>
              have h3 : precedence c = 3 := rA_prec c hra
              have hll : 3 < level l := by
                simp [hra] at hcond
                omega
              rw [pend_of_level_four l hll]
              intro t ht
              cases ht
          | false =>
              have hcl : precedence c ≤ level l := by
                simp [hra] at hcond
                omega
              exact pops_pend c l hl hcl hra
        · exact hb c (by simp [leftOps])
      have hbr : ∀ o ∈ leftOps r, blockedFor o (Token.op c :: s) = true := by
        intro o ho
        have hor : level r ≤ precedence o := leftOps_prec r hr o ho
        have hfalse : popCondB o (Token.op c) = false := by
          cases hra : is_right_associative c with
          | true =>
              have hc : c = '^' := (rA_eq c).mp hra
              have h3c : precedence c = 3 := rA_prec c hra
              have hcr : precedence c ≤ level r := by
                simp [hra] at hcond
                omega
              have h3 : precedence o = 3 := by
                have := precedence_le_three o
                omega
              rw [hc]
              exact popCond_false_caret o h3
          | false =>
              apply popCond_false_of_lt
              have : precedence c < level r := by
                simp [hra] at hcond
                omega
              omega
        simp [blockedFor, hfalse]
      have hfr : ∀ g, Token.fn g ∉ (Token.op c :: s) := by
        intro g hg
        rcases List.mem_cons.mp hg with h | h
        · cases h
        · exact hf g h
      simp only [syRun, hpop]
      rw [ihr hr ts (Token.op c :: s) hbr hfr]
      have hstack : pend r ++ (Token.op c :: s) = pend (Expr.bin c l r) ++ s := by
        simp [pend]
      rw [hstack]
      cases hx : syRun ts (pend (Expr.bin c l r) ++ s) <;>
        simp [emitted, List.append_assoc]

/-- Postfix form identity: what is emitted followed by what is pending is the
postfix form. -/
lemma emitted_append_pend (e : Expr) : emitted e ++ pend e = rpn e := by
  induction e with
  | num v => rfl
  | paren e ih => simpa [emitted, pend, rpn] using ih
  | bin c l r ihl ihr =>
      simp only [emitted, pend, rpn, ← ihl, ← ihr]
      simp [List.append_assoc]

/-- The converter on the infix token sequence of a precedence-respecting
expression produces exactly its postfix form. -/
lemma to_rpn_tokensOf (e : Expr) (he : respB e = true) :
    to_rpn (tokensOf e) = some (rpn e) := by
  have h := syRun_expr e he [] []
      (fun o _ => rfl) (fun g hg => by cases hg)
  rw [List.append_nil] at h
  rw [to_rpn, h]
  rw [show syRun [] (pend e ++ []) = drain (pend e ++ []) from rfl]
  rw [List.append_nil, drain_not_mem (pend e) (lparen_not_mem_pend e)]
  simp [emitted_append_pend]

/-- Evaluating the postfix form of an expression on any stack pushes its
direct arithmetic value (or fails exactly when direct evaluation fails). -/
lemma eval_rpn_go_expr (e : Expr) : ∀ (ts : List Token) (st : List ℚ),
    eval_rpn_go (rpn e ++ ts) st =
      Option.bind (evalExpr e) (fun v => eval_rpn_go ts (v :: st)) := by
  induction e with
  | num v => intro ts st; simp [rpn, evalExpr, eval_rpn_go]
  | paren e ih =>
      intro ts st
      simpa [rpn, evalExpr] using ih ts st
  | bin c l r ihl ihr =>
      intro ts st
      have hstep : rpn (Expr.bin c l r) ++ ts
          = rpn l ++ (rpn r ++ (Token.op c :: ts)) := by
        simp [rpn]
      rw [hstep, ihl]
      cases hl : evalExpr l with
      | none => simp [evalExpr, hl]
      | some a =>
          simp only [Option.some_bind]
          rw [ihr]
          cases hr : evalExpr r with
          | none => simp [evalExpr, hl, hr]
          | some b =>
              simp only [Option.some_bind]
              cases hop : apply_operator c a b <;>
                simp [evalExpr, hl, hr, hop, eval_rpn_go]

/-- The postfix evaluator applied to the postfix form of an expression is
direct arithmetic evaluation. -/
lemma eval_rpn_rpn (e : Expr) : eval_rpn (rpn e) = evalExpr e := by
  have h := eval_rpn_go_expr e [] []
  rw [List.append_nil] at h
  rw [eval_rpn, h]
  cases evalExpr e <;> simp [eval_rpn_go]

/-!
Unbalanced parentheses: the converter preserves the invariant that the
number of left parentheses on its stack is the current nesting depth, so a
token sequence that fails the balance check makes it return none.
-/

lemma popForOp_countLP (c : Char) (s : List Token) :
    countLP (popForOp c s).2 = countLP s := by
  induction s with
  | nil => rfl
  | cons t s ih =>
      by_cases h : popCondB c t = true
      · have ht : t ≠ Token.lparen := by
          intro he
          subst he
          exact Bool.noConfusion h
        simp only [popForOp, h, if_true]
        rw [countLP_cons t s ht]
        exact ih
      · simp [popForOp, h]

lemma afterRParen_countLP (s : List Token) :
    countLP (afterRParen s).2 = countLP s := by
  cases s with
  | nil => rfl
  | cons t s => cases t <;> rfl

lemma syRun_unbalanced : ∀ (ts s : List Token),
    balancedB ts (countLP s) = false → syRun ts s = none := by
  intro ts
  induction ts with
  | nil =>
      intro s h
      simp only [balancedB, beq_eq_false_iff_ne, ne_eq] at h
      simp only [syRun]
      exact drain_of_mem s (mem_of_countLP_ne s h)
  | cons t ts ih =>
      intro s h
      cases t with
      | num v =>
          have hb : balancedB ts (countLP s) = false := h
          simp [syRun, ih s hb]
      | fn f =>
          have hb : balancedB ts (countLP (Token.fn f :: s)) = false := by
            rw [countLP_cons _ _ (by simp)]
            exact h
          simp only [syRun]
          exact ih _ hb
      | op c =>
          have hb : balancedB ts (countLP (Token.op c :: (popForOp c s).2)) = false := by
            rw [countLP_cons _ _ (by simp), popForOp_countLP]
            exact h
          simp [syRun, ih _ hb]
      | lparen =>
          have hb : balancedB ts (countLP (Token.lparen :: s)) = false := by
            rw [show countLP (Token.lparen :: s) = countLP s + 1 from rfl]
            exact h
          simp only [syRun]
          exact ih _ hb
      | rparen =>
          rcases hd : countLP s with _ | k
          · have hnm : Token.lparen ∉ s := not_mem_of_countLP_zero s hd
            simp [syRun, popToLParen_not_mem s hnm]
          · have hmem : Token.lparen ∈ s := mem_of_countLP_ne s (by omega)
            obtain ⟨p, s2, hp, hc⟩ := popToLParen_of_mem s hmem
            have hb : balancedB ts (countLP (afterRParen s2).2) = false := by
              rw [afterRParen_countLP]
              have hk : countLP s2 = k := by omega
              rw [hk]
              rw [hd] at h
              exact h
            simp [syRun, hp, ih _ hb]

lemma to_rpn_unbalanced (ts : List Token) (h : balancedB ts 0 = false) :
    to_rpn ts = none := by
  have h0 : countLP ([] : List Token) = 0 := rfl
  rw [to_rpn]
  exact syRun_unbalanced ts [] (by rw [h0]; exact h)

/-- The tokenizer maps a whitespace-only input to the empty token sequence
(with any sufficient fuel). -/
lemma tokenizeGo_spaces (lr : ℚ) : ∀ (s : List Char) (fuel : Nat),
    s.length ≤ fuel → (∀ c ∈ s, isSpaceC c = true) →
    tokenizeGo lr fuel s = some [] := by
  intro s
  induction s with
  | nil =>
      intro fuel _ _
      cases fuel <;> rfl
  | cons c cs ih =>
      intro fuel hlen hsp
      cases fuel with
      | zero => simp at hlen
      | succ f =>
          have hc : isSpaceC c = true := hsp c (by simp)
          simp only [tokenizeGo, hc, if_true]
          exact ih f (by simpa using hlen) (fun u hu => hsp u (by simp [hu]))

/-!
Claim theorems.
-/

/-- C1: for every precedence-respecting arithmetic expression without
functions, running the converter and the postfix evaluator on its infix
token sequence returns the value of direct arithmetic evaluation under the
precedence table, with parentheses overriding precedence; in particular
evaluate gives 11 on the source text 3 + 4 * 2 and 14 on (3 + 4) * 2, for
every last result. -/
theorem eval_matches_direct_arithmetic :
    (∀ e : Expr, respB e = true → convert_eval (tokensOf e) = evalExpr e)
    ∧ (∀ lr : ℚ, evaluate ("3 + 4 * 2".toList) lr = some 11)
    ∧ (∀ lr : ℚ, evaluate ("(3 + 4) * 2".toList) lr = some 14) := by
  refine ⟨?_, ?_, ?_⟩
  · intro e he
    simp only [convert_eval, to_rpn_tokensOf e he]
    exact eval_rpn_rpn e
  · intro lr
    with_unfolding_all rfl
  · intro lr
    with_unfolding_all rfl

/-- Witness for C1 at the expression 3 + 4 * 2. -/
theorem eval_matches_direct_arithmetic_w :
    convert_eval (tokensOf (Expr.bin '+' (Expr.num 3)
        (Expr.bin '*' (Expr.num 4) (Expr.num 2)))) = some 11 :=
  (eval_matches_direct_arithmetic.1 _ (by decide)).trans
    (by with_unfolding_all decide)

/-- C2: the caret is the only right-associative operator (all others are
left-associative), repeated caret groups right to left in the converted
postfix sequence, and evaluate returns 512 on 2 ^ 3 ^ 2 for every last
result. -/
theorem caret_right_assoc :
    (∀ c : Char, is_right_associative c = (c == '^'))
    ∧ (∀ a b c : ℚ,
        to_rpn [Token.num a, Token.op '^', Token.num b, Token.op '^', Token.num c]
          = some [Token.num a, Token.num b, Token.num c, Token.op '^', Token.op '^'])
    ∧ (∀ a b c : ℚ,
        to_rpn [Token.num a, Token.op '+', Token.num b, Token.op '+', Token.num c]
          = some [Token.num a, Token.num b, Token.op '+', Token.num c, Token.op '+'])
    ∧ (∀ lr : ℚ, evaluate ("2 ^ 3 ^ 2".toList) lr = some 512) := by
  refine ⟨fun c => rfl, fun a b c => rfl, fun a b c => rfl, fun lr => ?_⟩
  with_unfolding_all rfl

/-- C3: unbalanced parentheses always make the conversion fail: any token
sequence failing the balance check converts to none (a right parenthesis
that empties the stack without a left one, or a leftover left parenthesis at
end of input), and in particular both (3 + 4 and 3 + 4) fail for every last
result. -/
theorem unbalanced_parens_fail :
    (∀ ts : List Token, balancedB ts 0 = false → to_rpn ts = none)
    ∧ (∀ lr : ℚ, evaluate ("(3 + 4".toList) lr = none)
    ∧ (∀ lr : ℚ, evaluate ("3 + 4)".toList) lr = none) := by
  refine ⟨to_rpn_unbalanced, fun lr => ?_, fun lr => ?_⟩
  · with_unfolding_all rfl
  · with_unfolding_all rfl

/-- Witness for C3 at a lone left parenthesis. -/
theorem unbalanced_parens_fail_w :
    balancedB [Token.lparen] 0 = false ∧ to_rpn [Token.lparen] = none :=
  ⟨by decide, unbalanced_parens_fail.1 [Token.lparen] (by decide)⟩

/-- C4: division errors exactly when the right operand is zero, modulo
errors exactly when the truncated right operand is zero, and evaluate on
5 / 0 is an error (none), not an infinity, for every last result. -/
theorem div_mod_zero_error :
    (∀ a b : ℚ, apply_operator '/' a b = none ↔ b = 0)
    ∧ (∀ a b : ℚ, apply_operator '%' a b = none ↔ truncQ b = 0)
    ∧ (∀ lr : ℚ, evaluate ("5 / 0".toList) lr = none) := by
  refine ⟨?_, ?_, fun lr => by with_unfolding_all rfl⟩
  · intro a b
    show (if b = 0 then none else some (a / b)) = none ↔ b = 0
    split_ifs with h <;> simp [h]
  · intro a b
    show (if truncQ b = 0 then none
          else some ((Int.tmod (truncQ a) (truncQ b) : ℚ))) = none
        ↔ truncQ b = 0
    split_ifs with h <;> simp [h]

/-- Witness for C4: dividing by zero errors, and modulo by one half (which
truncates to zero) errors. -/
theorem div_mod_zero_error_w :
    apply_operator '/' 1 0 = none ∧ apply_operator '%' 1 (1/2 : ℚ) = none :=
  ⟨(div_mod_zero_error.1 1 0).mpr rfl,
   (div_mod_zero_error.2.1 1 (1/2)).mpr (by with_unfolding_all decide)⟩

/-- C5: with a nonzero truncated right operand, the modulo operator computes
the C integer remainder of the two operands truncated toward zero; at
7.5 % 2 this gives 1, not the real remainder 1.5 of 7.5 by 2. -/
theorem mod_integer_semantics :
    (∀ a b : ℚ, truncQ b ≠ 0 →
        apply_operator '%' a b = some ((Int.tmod (truncQ a) (truncQ b) : ℚ)))
    ∧ apply_operator '%' (15/2 : ℚ) 2 = some 1
    ∧ apply_operator '%' (15/2 : ℚ) 2
        ≠ some ((15/2 : ℚ) - 2 * ⌊(15/2 : ℚ) / 2⌋) := by
  refine ⟨?_, ?_, ?_⟩
  · intro a b h
    show (if truncQ b = 0 then none
          else some ((Int.tmod (truncQ a) (truncQ b) : ℚ)))
        = some ((Int.tmod (truncQ a) (truncQ b) : ℚ))
    simp [h]
  · with_unfolding_all decide
  · with_unfolding_all decide

/-- Witness for C5 at 7.5 % 2. -/
theorem mod_integer_semantics_w :
    truncQ (2 : ℚ) ≠ 0
    ∧ apply_operator '%' (15/2 : ℚ) 2
        = some ((Int.tmod (truncQ (15/2 : ℚ)) (truncQ (2 : ℚ)) : ℚ)) :=
  ⟨by with_unfolding_all decide,
   mod_integer_semantics.1 (15/2) 2 (by with_unfolding_all decide)⟩

set_option maxRecDepth 4000 in
/-- C6: the C tokenizer enforces no capacity: on an expression of 101 tokens
it produces all 101 of them with no TooManyTokens rejection, although the
token buffer holds only MAX_TOKENS = 100 entries (the C code writes the
101st token out of bounds instead of rejecting). -/
theorem token_capacity_unchecked :
    (tokenize 0 longInput).map List.length = some 101 ∧ MAX_TOKENS < 101 := by
  constructor
  · with_unfolding_all decide
  · decide

/-- C7 counterexample: the input 1.2.3, whose digit-and-dot run contains two
decimal points, IS accepted by the C tokenizer as a single Number token
(value 1.2, read from the longest valid prefix; the trailing .3 is consumed
and silently dropped), contradicting the claim that such an input is not
accepted as a single Number token. -/
theorem multi_dot_single_token :
    tokenize 0 ("1.2.3".toList) = some [Token.num (6/5)]
    ∧ (tokenize 0 ("1.2.3".toList)).map List.length = some 1 := by
  constructor
  · with_unfolding_all decide
  · with_unfolding_all decide

/-- C7 amended: a literal starts at a digit or at a point followed by a
digit, and the tokenizer consumes the whole maximal run of digits and points
as one Number token whose value is read from the longest valid prefix
(digits, at most one point, digits); so 1.2.3 is a single Number token of
value 1.2, .5 is a single Number token of value one half, and a lone point
is an invalid character. -/
theorem multi_dot_literal_behavior :
    (∀ lr : ℚ, tokenize lr ("1.2.3".toList) = some [Token.num (6/5)])
    ∧ (∀ lr : ℚ, tokenize lr (".5".toList) = some [Token.num (1/2)])
    ∧ (∀ lr : ℚ, tokenize lr (".".toList) = none) := by
  refine ⟨fun lr => ?_, fun lr => ?_, fun lr => rfl⟩
  · with_unfolding_all rfl
  · with_unfolding_all rfl

/-- C8 counterexample: the input with the at sign fails at tokenization and
5 / 0 passes tokenization and conversion but fails at evaluation (division
by zero) — two spec-distinct failure reasons — yet evaluate_expression
returns the identical error value (0 with the error flag) for both: the C
core collapses every failure into one undifferentiated int flag, so the
returned error values are not distinguishable. -/
theorem error_values_collapse :
    tokenize 0 ("@".toList) = none
    ∧ tokenize 0 ("5 / 0".toList)
        = some [Token.num 5, Token.op '/', Token.num 0]
    ∧ to_rpn [Token.num 5, Token.op '/', Token.num 0]
        = some [Token.num 5, Token.num 0, Token.op '/']
    ∧ eval_rpn [Token.num 5, Token.num 0, Token.op '/'] = none
    ∧ evaluate_expression ("@".toList) 0 = evaluate_expression ("5 / 0".toList) 0 := by
  refine ⟨rfl, ?_, rfl, ?_, ?_⟩
  · with_unfolding_all decide
  · with_unfolding_all decide
  · with_unfolding_all decide

/-- C8 amended: every stage reports failure through its result channel and
the first failing stage aborts the remaining stages, the failure surfacing
verbatim to the caller of evaluate_expression; but the surfaced error value
is the single undifferentiated flag, identical for every failure reason. -/
theorem first_failure_aborts :
    (∀ (s : List Char) (lr : ℚ), tokenize lr s = none →
        evaluate_expression s lr = (0, true))
    ∧ (∀ (s : List Char) (lr : ℚ) (ts : List Token), tokenize lr s = some ts →
        to_rpn ts = none → evaluate_expression s lr = (0, true))
    ∧ (∀ (s : List Char) (lr : ℚ) (ts ps : List Token), tokenize lr s = some ts →
        to_rpn ts = some ps → eval_rpn ps = none →
        evaluate_expression s lr = (0, true))
    ∧ (∀ (s : List Char) (lr : ℚ) (ts ps : List Token) (v : ℚ),
        tokenize lr s = some ts → to_rpn ts = some ps → eval_rpn ps = some v →
        evaluate_expression s lr = (v, false)) := by
  refine ⟨?_, ?_, ?_, ?_⟩ <;> intros <;>
    simp [evaluate_expression, evaluate, convert_eval, *]

/-- Witness for C8 amended at the at-sign input. -/
theorem first_failure_aborts_w :
    tokenize 0 ("@".toList) = none
    ∧ evaluate_expression ("@".toList) 0 = (0, true) :=
  ⟨rfl, first_failure_aborts.1 ("@".toList) 0 rfl⟩

/-- C9: a function name applied to an operand without parentheses still
evaluates: for every function name and operand value whose application
succeeds, the converter pushes the function token and the end-of-input drain
pops it after the operand, so the pipeline returns the applied value; in
particular evaluate returns 4 on sqrt 16 for every last result. -/
theorem function_without_parens :
    (∀ (f : String) (x v : ℚ), apply_function f x = some v →
        convert_eval [Token.fn f, Token.num x] = some v)
    ∧ (∀ lr : ℚ, evaluate ("sqrt 16".toList) lr = some 4) := by
  constructor
  · intro f x v h
    simp [convert_eval, to_rpn, syRun, drain, eval_rpn, eval_rpn_go, h]
  · intro lr
    with_unfolding_all rfl

/-- Witness for C9 at sqrt applied to 16 without parentheses. -/
theorem function_without_parens_w :
    apply_function "sqrt" 16 = some 4
    ∧ convert_eval [Token.fn "sqrt", Token.num 16] = some 4 :=
  ⟨by with_unfolding_all decide,
   function_without_parens.1 "sqrt" 16 4 (by with_unfolding_all decide)⟩

/-- C10: the empty input and every whitespace-only input fail: tokenization
yields zero tokens, conversion yields the empty postfix sequence, and the
evaluator rejects it since the final value-stack depth is 0 rather than 1,
for every last result. -/
theorem empty_input_fails :
    (∀ (s : List Char) (lr : ℚ), (∀ c ∈ s, isSpaceC c = true) →
        tokenize lr s = some [] ∧ evaluate s lr = none)
    ∧ (∀ lr : ℚ, evaluate ([] : List Char) lr = none) := by
  constructor
  · intro s lr hsp
    have htok : tokenize lr s = some [] :=
      tokenizeGo_spaces lr s s.length (le_refl _) hsp
    refine ⟨htok, ?_⟩
    simp [evaluate, htok, convert_eval, to_rpn, syRun, drain, eval_rpn, eval_rpn_go]
  · intro lr
    rfl

/-- Witness for C10 at a single-space input. -/
theorem empty_input_fails_w :
    (∀ c ∈ ([' '] : List Char), isSpaceC c = true)
    ∧ (tokenize 0 [' '] = some [] ∧ evaluate [' '] 0 = none) :=
  ⟨by decide, empty_input_fails.1 [' '] 0 (by decide)⟩

end Calculator
